import Mathlib

/-!
Verification of the line-item extraction engine of `app.py` (PDF invoice to
spreadsheet converter).  The Python source is shallowly embedded: text is
modelled as `List Char`, Python floats as exact rationals `ℚ`, exceptions as
`Option` / explicit skip branches, and the mutable scan context as an explicit
`ScanState` threaded through a fold over the line stream.  Each regular
expression used by the source is embedded as a hand-written matcher with the
same leftmost-search and greedy/lazy semantics on the inputs the program
feeds it.
-/

namespace VirPdf

section

/- Batteries marks the arithmetic of `Rat` `@[irreducible]`, which blocks the
elaborator's reduction in `decide`/`rfl` proofs on concrete rational values;
the kernel itself is unaffected.  Restore the default reducibility locally so
concrete runs of the embedded program can be evaluated in proofs. -/
attribute [local semireducible] Rat.add Rat.mul Rat.inv Rat.sub Rat.ofScientific

/-- Convenience coercion from Lean string literals to the character-list
model of Python strings. -/
def str (s : String) : List Char := s.data

/-- Whitespace as understood by Python's `str.strip`, `str.split()` and the
regex class `\s` (ASCII range). -/
def isSpc (c : Char) : Bool :=
  c = ' ' || c = '\t' || c = '\n' || c = '\r' || c = '\x0b' || c = '\x0c'

/-- `s.strip()`: removes leading and trailing whitespace. -/
def pyStrip (s : List Char) : List Char :=
  ((s.dropWhile isSpc).reverse.dropWhile isSpc).reverse

/-- Helper of `pySplitWs`: accumulates the current word (reversed). -/
def splitWsAux : List Char → List Char → List (List Char)
  | [], acc => if acc = [] then [] else [acc.reverse]
  | c :: rest, acc =>
    if isSpc c then
      if acc = [] then splitWsAux rest [] else acc.reverse :: splitWsAux rest []
    else splitWsAux rest (c :: acc)

/-- `s.split()` with no argument: split on whitespace runs, no empty parts. -/
def pySplitWs (s : List Char) : List (List Char) := splitWsAux s []

/-- Boolean prefix test on character lists. -/
def isPrefixL : List Char → List Char → Bool
  | [], _ => true
  | _ :: _, [] => false
  | a :: as, b :: bs => a = b && isPrefixL as bs

/-- Python's substring containment `pat in s`. -/
def containsSub (pat : List Char) : List Char → Bool
  | [] => pat.isEmpty
  | b :: bs => isPrefixL pat (b :: bs) || containsSub pat bs

/-- `s.replace("USD", "")`: removes every (leftmost-first, non-overlapping)
occurrence of `USD`.  Strings of length below 3 cannot contain the pattern
and are returned whole. -/
def stripUSD : List Char → List Char
  | [] => []
  | [c] => [c]
  | [c, d] => [c, d]
  | c :: d :: e :: r =>
    if c = 'U' ∧ d = 'S' ∧ e = 'D' then stripUSD r
    else c :: stripUSD (d :: e :: r)

/-- `s.replace(".", "")`: a single-character pattern with empty replacement
removes exactly the occurrences of that character. -/
def remDots (s : List Char) : List Char := s.filter (fun c => decide (c ≠ '.'))

/-- `s.replace(",", ".")`: single character replaced by a single character. -/
def commaToDot (s : List Char) : List Char :=
  s.map (fun c => if c = ',' then '.' else c)

/-- Numeric value of a digit string read left to right. -/
def digitsToNat (ds : List Char) : Nat :=
  ds.foldl (fun a c => 10 * a + (c.toNat - 48)) 0

/-- Reads an optional leading sign (`-` gives `true`). -/
def readSign (s : List Char) : Bool × List Char :=
  match s with
  | [] => (false, [])
  | c :: r => if c = '-' then (true, r) else if c = '+' then (false, r) else (false, c :: r)

/-- Optional exponent suffix of a Python float literal applied to a mantissa. -/
def expApply (v : ℚ) (rest : List Char) : Option ℚ :=
  match rest with
  | [] => some v
  | c :: r =>
    if c = 'e' ∨ c = 'E' then
      let p := readSign r
      let ed := p.2.takeWhile Char.isDigit
      let r2 := p.2.dropWhile Char.isDigit
      if ed = [] ∨ r2 ≠ [] then none
      else some (if p.1 then v / 10 ^ digitsToNat ed else v * 10 ^ digitsToNat ed)
    else none

/-- Mantissa part of a float literal: `ip` is the integer-digit run, the
remainder either is empty, starts with a decimal point (then fraction digits
are read), or starts the exponent; at least one digit must be present.
Returns the mantissa value and the remaining characters. -/
def pyCore (ip : List Char) : List Char → Option (ℚ × List Char)
  | [] => if ip = [] then none else some (((digitsToNat ip : ℚ)), [])
  | c :: r2 =>
    if c = '.' then
      if ip = [] ∧ r2.takeWhile Char.isDigit = [] then none
      else
        some ((digitsToNat ip : ℚ)
          + (digitsToNat (r2.takeWhile Char.isDigit) : ℚ)
              / 10 ^ (r2.takeWhile Char.isDigit).length,
          r2.dropWhile Char.isDigit)
    else if ip = [] then none else some ((digitsToNat ip : ℚ), c :: r2)

/-- Model of Python's `float()` constructor on the cleaned strings this
program feeds it: finite decimal literals `[sign] (digits [. digits] | . digits)
[(e|E) [sign] digits]`, valued exactly in `ℚ`.  (`inf`/`nan`, underscore
separators and non-ASCII digits are outside the model and treated as parse
failures; the program never produces them from its own cleaning step.) -/
def pyFloat (s : List Char) : Option ℚ :=
  match pyCore ((readSign s).2.takeWhile Char.isDigit)
      ((readSign s).2.dropWhile Char.isDigit) with
  | none => none
  | some mr => (expApply mr.1 mr.2).map (fun v => if (readSign s).1 then -v else v)

/-- The cleaning pipeline of `parse_decimal`: strip `USD` markers, strip
surrounding whitespace, drop thousands-separator dots, turn the decimal comma
into a period. -/
def cleanOf (s : List Char) : List Char :=
  commaToDot (remDots (pyStrip (stripUSD s)))

/-- `parse_decimal` from `app.py`: European-format decimal text to a number;
empty input and any parse failure yield `0.0` (the `try/except` is modelled
by the `Option` returned from `pyFloat`). -/
def parse_decimal (s : List Char) : ℚ :=
  if s = [] then 0
  else
    match pyFloat (cleanOf s) with
    | some q => q
    | none => 0

/-- Matches `re.match(r'\d{2}/\d{2}/\d{2}', w)`: an (unanchored-at-the-end)
date-shaped prefix. -/
def matchesDatePre (w : List Char) : Bool :=
  match w with
  | a :: b :: c :: d :: e :: f :: g :: h :: _ =>
    a.isDigit && b.isDigit && c = '/' && d.isDigit && e.isDigit && f = '/' &&
      g.isDigit && h.isDigit
  | _ => false

/-- `is_item_code` from `app.py`. -/
def is_item_code (w : List Char) : Bool :=
  if w = [] || w.length < 3 then false
  else if isPrefixL (str "OC") w && decide (8 < w.length) && (w.getD 2 ' ').isDigit then false
  else if isPrefixL (str "PO-") w then false
  else if matchesDatePre w then false
  else w.any Char.isDigit

/-! ### Embedded regular-expression searches

Each `re.search`/`re.findall` of the source is embedded as a scanner over the
character list with the same semantics on this pattern class: leftmost match,
greedy quantifiers (here always over character classes disjoint from what
follows, so no backtracking arises), lazy `.*?` as earliest-next-match. -/

/-- Next 8 characters are digits: the capture `(\d{8})`. -/
def digits8 (cs : List Char) : Option (List Char) :=
  match cs with
  | a :: b :: c :: d :: e :: f :: g :: h :: _ =>
    if (a.isDigit && b.isDigit && c.isDigit && d.isDigit &&
        e.isDigit && f.isDigit && g.isDigit && h.isDigit) then
      some [a, b, c, d, e, f, g, h]
    else none
  | _ => none

/-- After the `S` of the HS marker: `\.?\s*(\d{8})` (greedy optional dot with
backtracking, then whitespace, then the 8-digit capture). -/
def hsAfterS (cs : List Char) : Option (List Char) :=
  match cs with
  | '.' :: r =>
    match digits8 (r.dropWhile isSpc) with
    | some d => some d
    | none => digits8 (cs.dropWhile isSpc)
  | _ => digits8 (cs.dropWhile isSpc)

/-- Try `H\.?S\.?\s*(\d{8})` anchored at the head of the list. -/
def hsMatchAt : List Char → Option (List Char)
  | 'H' :: '.' :: 'S' :: r => hsAfterS r
  | 'H' :: 'S' :: r => hsAfterS r
  | _ => none

/-- `re.search(r'H\.?S\.?\s*(\d{8})', line)`: the captured 8-digit code of
the leftmost match. -/
def hsSearch : List Char → Option (List Char)
  | [] => none
  | c :: r =>
    match hsMatchAt (c :: r) with
    | some d => some d
    | none => hsSearch r

/-- `\d{2}/\d{2}/\d{2}` anchored at the head. -/
def dateAt (cs : List Char) : Option (List Char) :=
  match cs with
  | a :: b :: '/' :: c :: d :: '/' :: e :: f :: _ =>
    if a.isDigit && b.isDigit && c.isDigit && d.isDigit && e.isDigit && f.isDigit then
      some [a, b, '/', c, d, '/', e, f]
    else none
  | _ => none

/-- Earliest date-shaped substring: the lazy `.*?(\d{2}/\d{2}/\d{2})`. -/
def dateSearch : List Char → Option (List Char)
  | [] => none
  | c :: r =>
    match dateAt (c :: r) with
    | some d => some d
    | none => dateSearch r

/-- Character class `[\w\d\-]` (ASCII model of `\w`). -/
def isPOChar (c : Char) : Bool := c.isAlphanum || c = '_' || c = '-'

/-- Try `REF\s+(PO-[\w\d\-]+)(?:.*?(\d{2}/\d{2}/\d{2}))?` anchored at the
head; returns (group 1, optional group 2). -/
def poMatchAt : List Char → Option (List Char × Option (List Char))
  | 'R' :: 'E' :: 'F' :: c :: rest =>
    if isSpc c then
      match rest.dropWhile isSpc with
      | 'P' :: 'O' :: '-' :: r2 =>
        match r2.takeWhile isPOChar with
        | [] => none
        | w => some (str "PO-" ++ w, dateSearch (r2.dropWhile isPOChar))
      | _ => none
    else none
  | _ => none

/-- `re.search` with the purchase-order pattern: leftmost match. -/
def poSearch : List Char → Option (List Char × Option (List Char))
  | [] => none
  | c :: r =>
    match poMatchAt (c :: r) with
    | some m => some m
    | none => poSearch r

/-- `[A-Z]` test. -/
def isUpperAZ (c : Char) : Bool := 'A' ≤ c && c ≤ 'Z'

/-- Invoice number `(\d{4}/[A-Z]{2}/\d+)` anchored at the head; returns the
capture and the remaining characters. -/
def invNumAt (cs : List Char) : Option (List Char × List Char) :=
  match cs with
  | a :: b :: c :: d :: '/' :: e :: f :: '/' :: r =>
    if a.isDigit && b.isDigit && c.isDigit && d.isDigit && isUpperAZ e && isUpperAZ f then
      match r.takeWhile Char.isDigit with
      | [] => none
      | ds => some (a :: b :: c :: d :: '/' :: e :: f :: '/' :: ds, r.dropWhile Char.isDigit)
    else none
  | _ => none

/-- `DATE\s+(\d{2}/\d{2}/\d{2})` anchored at the head. -/
def dateAfterDATE : List Char → Option (List Char)
  | 'D' :: 'A' :: 'T' :: 'E' :: c :: rest =>
    if isSpc c then dateAt (rest.dropWhile isSpc) else none
  | _ => none

/-- The greedy `.*DATE\s+(...)`: last position where the date part matches. -/
def searchLastDate : List Char → Option (List Char)
  | [] => none
  | c :: r =>
    match searchLastDate r with
    | some d => some d
    | none => dateAfterDATE (c :: r)

/-- Try the header pattern
`(?:FATTURA|INVOICE)\s+(\d{4}/[A-Z]{2}/\d+).*DATE\s+(\d{2}/\d{2}/\d{2})`
anchored at the head. -/
def headerMatchAt (s : List Char) : Option (List Char × List Char) :=
  let afterKW : Option (List Char) :=
    if isPrefixL (str "FATTURA") s then some (s.drop 7)
    else if isPrefixL (str "INVOICE") s then some (s.drop 7)
    else none
  match afterKW with
  | none => none
  | some r =>
    match r with
    | [] => none
    | c :: _ =>
      if isSpc c then
        match invNumAt (r.dropWhile isSpc) with
        | some nr =>
          match searchLastDate nr.2 with
          | some d => some (nr.1, d)
          | none => none
        | none => none
      else none

/-- `re.search` with the header pattern: leftmost match. -/
def headerSearch : List Char → Option (List Char × List Char)
  | [] => none
  | c :: r =>
    match headerMatchAt (c :: r) with
    | some m => some m
    | none => headerSearch r

/-! ### Data model and the line-item scanner -/

/-- One emitted line item (the dict built at `pending_row = {...}` in
`process_pdf`).  Numeric fields are exact rationals; the enrichment columns
(`Fig No` …) come from the external, optional `Item Master.csv` collaborator
and stay outside the embedded core. -/
structure Row where
  inv_no : List Char
  inv_date : List Char
  supplier : List Char
  oc : List Char
  po_no : List Char
  po_date : List Char
  item_code : List Char
  item_desc : List Char
  currency : List Char
  qty : ℚ
  price : ℚ
  discount : ℚ
  amount : ℚ
  vat : List Char
  hs_code : List Char
  unit_weight : ℚ
  total_weight : ℚ
deriving DecidableEq

instance : Inhabited Row :=
  ⟨⟨[], [], [], [], [], [], [], [], [], 0, 0, 0, 0, [], [], 0, 0⟩⟩

/-- The scanner's mutable context in `process_pdf` (invoice header fields,
the sticky `current_*` variables, the open row and the output list). -/
structure ScanState where
  invoice_no : List Char
  invoice_date : List Char
  current_oc : List Char
  current_po : List Char
  current_po_date : List Char
  current_item_code : List Char
  current_hs_code : List Char
  pending_row : Option Row
  extracted_rows : List Row
deriving DecidableEq

/-- The initial scanner context of `process_pdf`. -/
def initState : ScanState :=
  ⟨[], [], [], [], [], [], [], none, []⟩

/-- `supplier_name` constant of `process_pdf`. -/
def supplierName : List Char := str "VIR VALVOINDUSTRIA ING. RIZZIO S.P.A."

/-- `line.split(" PZ ")`: split at non-overlapping occurrences of the
4-character separator, left to right, keeping empty parts. -/
def splitPZ : List Char → List (List Char)
  | ' ' :: 'P' :: 'Z' :: ' ' :: rest => [] :: splitPZ rest
  | c :: rest =>
    match splitPZ rest with
    | h :: t => (c :: h) :: t
    | [] => [[c]]
  | [] => [[]]

/-- The separator `" PZ "` marking a transaction line. -/
def pzSep : List Char := str " PZ "

/-- Header-capture branch (`if i == 0 and "INVOICE N." in line`). -/
def headerStep (fp : Bool) (s : ScanState) (l : List Char) : ScanState :=
  if fp && containsSub (str "INVOICE N.") l then
    match headerSearch l with
    | some nd => { s with invoice_no := nd.1, invoice_date := nd.2 }
    | none => s
  else s

/-- Order-confirmation capture branch. -/
def ocStep (s : ScanState) (l : List Char) : ScanState :=
  if isPrefixL (str "OC") l && decide (8 < l.length) && (l.getD 2 ' ').isDigit then
    { s with current_oc := (pySplitWs l).headD [] }
  else s

/-- Purchase-order capture branch (`"REF PO-" in line`). -/
def poStep (s : ScanState) (l : List Char) : ScanState :=
  if containsSub (str "REF PO-") l then
    match poSearch l with
    | some m =>
      { s with current_po := m.1, current_po_date := m.2.getD s.current_po_date }
    | none => s
  else s

/-- HS-code search guarded by the containment test of the source
(`"H.S" in line or "HS" in line`). -/
def hsFound (l : List Char) : Option (List Char) :=
  if containsSub (str "H.S") l || containsSub (str "HS") l then hsSearch l
  else none

/-- HS-code capture and pending-row backfill branch. -/
def hsStep (s : ScanState) (l : List Char) : ScanState :=
  match hsFound l with
  | some c =>
    { s with
      current_hs_code := c,
      pending_row := s.pending_row.map (fun r => { r with hs_code := c }) }
  | none => s

/-- Standalone item-code capture branch (only on non-transaction lines). -/
def itemStep (s : ScanState) (l : List Char) : ScanState :=
  if containsSub pzSep l then s
  else
    match pySplitWs l with
    | [] => s
    | w :: _ => if is_item_code w then { s with current_item_code := w } else s

/-- Math-part whitespace tokens of a transaction line
(`parts[1].strip().split()`). -/
def mathTokensOf (l : List Char) : List (List Char) :=
  pySplitWs (pyStrip ((splitPZ l).getD 1 []))

/-- Commit of an open row on encountering a new transaction line
(`extracted_rows.append(pending_row); pending_row = None`). -/
def commitPending (s : ScanState) : ScanState :=
  match s.pending_row with
  | some r => { s with extracted_rows := s.extracted_rows ++ [r], pending_row := none }
  | none => s

/-- Description-part processing of a transaction line: if its first word is
an item code, promote it to `current_item_code` and strip it from the
description (which is re-joined with single spaces, as `" ".join` does). -/
def descUpdate (s : ScanState) (description : List Char) : ScanState × List Char :=
  match pySplitWs description with
  | w :: rest =>
    if is_item_code w then
      ({ s with current_item_code := w }, List.intercalate (str " ") rest)
    else (s, description)
  | [] => (s, description)

/-- The dict literal assigned to `pending_row` in the source's transaction
branch. -/
def mkPendingRow (cur : List Char) (s : ScanState) (desc : List Char)
    (mt : List (List Char)) : Row :=
  { inv_no := s.invoice_no
    inv_date := s.invoice_date
    supplier := supplierName
    oc := s.current_oc
    po_no := s.current_po
    po_date := s.current_po_date
    item_code := s.current_item_code
    item_desc := desc
    currency := cur
    qty := parse_decimal (if 1 ≤ mt.length then mt.headD [] else str "0")
    price := parse_decimal (if 2 ≤ mt.length then mt.getD (mt.length - 2) [] else str "0")
    discount := parse_decimal (str "0")
    amount := parse_decimal (mt.getLast?.getD [])
    vat := []
    hs_code := s.current_hs_code
    unit_weight := 0
    total_weight := 0 }

/-- Transaction-line branch (`if " PZ " in line`): commit any pending row,
then parse the line.  The only statement inside the source's `try` that can
raise is `math_tokens[-1]` on an empty token list; the `except: continue`
is modelled by returning the state reached at that point (note that the
commit has already happened and `current_item_code` may already have been
reassigned from the description before the failure, exactly as in the
source). -/
def transStep (cur : List Char) (s : ScanState) (l : List Char) : ScanState :=
  if containsSub pzSep l then
    let s1 := commitPending s
    let sd := descUpdate s1 (pyStrip ((splitPZ l).getD 0 []))
    match mathTokensOf l with
    | [] => sd.1
    | mt => { sd.1 with pending_row := some (mkPendingRow cur sd.1 sd.2 mt) }
  else s

/-- One iteration of the scanner's line loop (after `line.strip()`), with the
source's branch order: header, order confirmation, purchase order, HS code,
standalone item code, transaction line. -/
def stepLine (cur : List Char) (fp : Bool) (s : ScanState) (l : List Char) : ScanState :=
  transStep cur (itemStep (hsStep (poStep (ocStep (headerStep fp s l) l) l) l) l) l

/-- Fold of `stepLine` over a sequence of (first-page flag, stripped line)
pairs. -/
def scanSeq (cur : List Char) (ls : List (Bool × List Char)) (s : ScanState) : ScanState :=
  ls.foldl (fun st p => stepLine cur p.1 st p.2) s

/-- Effect of one line on an open row: if the line carries an HS code, the
row's HS code is overwritten (the backfill of the HS branch); otherwise the
row is untouched. -/
def hsBack (l : List Char) (r : Row) : Row :=
  match hsFound l with
  | some c => { r with hs_code := c }
  | none => r

/-- Cumulative backfill effect of a line sequence on an open row. -/
def applyBackfills (ls : List (List Char)) (r : Row) : Row :=
  ls.foldl (fun r l => hsBack l r) r

/-- The last HS code found on a sequence of lines, if any (later finds
override earlier ones). -/
def lastHS (ls : List (List Char)) : Option (List Char) :=
  ls.foldl (fun acc l => (hsFound l).or acc) none

/-- One page of the main pass: every line is stripped and scanned in order. -/
def scanPage (cur : List Char) (fp : Bool) (s : ScanState) (lines : List (List Char)) :
    ScanState :=
  lines.foldl (fun st l => stepLine cur fp st (pyStrip l)) s

/-- Main pass over the pages starting at page index `i`; a `none` page is the
"no text" signal and is skipped (`if not text: continue`). -/
def scanPagesFrom (cur : List Char) : Nat → ScanState →
    List (Option (List (List Char))) → ScanState
  | _, s, [] => s
  | i, s, p :: ps =>
    scanPagesFrom cur (i + 1)
      (match p with
       | none => s
       | some lines => scanPage cur (i == 0) s lines) ps

/-- The raw extracted rows of a document: the main pass, then the
end-of-document flush of a still-open pending row. -/
def scanDocRows (cur : List Char) (pages : List (Option (List (List Char)))) : List Row :=
  let s := scanPagesFrom cur 0 initState pages
  s.extracted_rows ++ s.pending_row.toList

/-! ### Post-passes: weight allocation and row merging -/

/-- Total quantity of the rows carrying a given HS code
(`df.groupby("HSCode")["Qty"].sum()` looked up at that code). -/
def qtySumFor (rows : List Row) (code : List Char) : ℚ :=
  ((rows.filter (fun r => decide (r.hs_code = code))).map Row.qty).sum

/-- `calculate_weights` from `app.py`.  The weight index is modelled as its
`get`-with-default-`0.0` lookup function.  (The source's `hs_qty_sum.get(code,
1.0)` default is dead on the rows the function is applied to, since every
row's own code appears in the group-by sums.) -/
def calculate_weights (rows : List Row) (wmap : List Char → ℚ) : List Row :=
  rows.map (fun r =>
    let q := qtySumFor rows r.hs_code
    let uw := if q = 0 then 0 else wmap r.hs_code / q
    { r with unit_weight := uw, total_weight := r.qty * uw })

/-- The grouping key of `merge_similar_items`: `("PO No", "ItemCode",
"Price")`. -/
def mkey (r : Row) : List Char × List Char × ℚ :=
  (r.po_no, r.item_code, r.price)

/-- Distinct grouping keys in first-occurrence order. -/
def mergeKeys (rows : List Row) : List (List Char × List Char × ℚ) :=
  rows.foldl (fun acc r => if mkey r ∈ acc then acc else acc ++ [mkey r]) []

/-- Aggregation of one group: `Qty`, `Amount` and `Total Weight` are summed,
every other column keeps the value of the first row of the group
(`"first"`). -/
def mergeGroup (grp : List Row) : Row :=
  match grp with
  | [] => default
  | g0 :: _ =>
    { g0 with
      qty := (grp.map Row.qty).sum
      amount := (grp.map Row.amount).sum
      total_weight := (grp.map Row.total_weight).sum }

/-- `merge_similar_items` from `app.py`: group by `mkey` and aggregate.
(The pandas `groupby` emits groups sorted by key; the embedding enumerates
keys in first-occurrence order.  The spec leaves group order open — "group
iteration order is not guaranteed to match input order" — and every claim
below is about the per-group aggregated values, not group order.) -/
def merge_similar_items (rows : List Row) : List Row :=
  (mergeKeys rows).map (fun k => mergeGroup (rows.filter (fun r => decide (mkey r = k))))

/-! ### Pre-passes: weight index and currency -/

/-- Page text reconstructed for the whole-text regex scans
(`page.extract_text()` before `split('\n')`). -/
def pageText (lines : List (List Char)) : List Char :=
  List.intercalate (str "\n") lines

/-- Try `(\d{8})\s+([\d\.]+,\d+)\s+[\d\.]+,\d+` anchored at the head;
on success returns (code, weight capture, rest after the match). -/
def weightMatchAt (cs : List Char) : Option (List Char × List Char × List Char) :=
  match digits8 cs with
  | none => none
  | some code =>
    let r0 := cs.drop 8
    match r0 with
    | [] => none
    | c :: _ =>
      if isSpc c then
        let r1 := r0.dropWhile isSpc
        let a := r1.takeWhile (fun c => c.isDigit || c = '.')
        match a, r1.dropWhile (fun c => c.isDigit || c = '.') with
        | _ :: _, ',' :: r2 =>
          match r2.takeWhile Char.isDigit with
          | [] => none
          | ds =>
            let r3 := r2.dropWhile Char.isDigit
            match r3 with
            | [] => none
            | c2 :: _ =>
              if isSpc c2 then
                let r4 := r3.dropWhile isSpc
                let b := r4.takeWhile (fun c => c.isDigit || c = '.')
                match b, r4.dropWhile (fun c => c.isDigit || c = '.') with
                | _ :: _, ',' :: r5 =>
                  match r5.takeWhile Char.isDigit with
                  | [] => none
                  | _ => some (code, a ++ ',' :: ds, r5.dropWhile Char.isDigit)
                | _, _ => none
              else none
        | _, _ => none
      else none

/-- `re.findall` with the weight pattern: non-overlapping matches scanning
left to right; fuelled recursion (the fuel `s.length` can never run out
because every step consumes at least one character). -/
def findWeightsAux : Nat → List Char → List (List Char × List Char)
  | 0, _ => []
  | _ + 1, [] => []
  | n + 1, c :: rest =>
    match weightMatchAt (c :: rest) with
    | some m => (m.1, m.2.1) :: findWeightsAux n m.2.2
    | none => findWeightsAux n rest

/-- All weight-summary matches of one text. -/
def findWeights (s : List Char) : List (List Char × List Char) :=
  findWeightsAux s.length s

/-- PRE-PASS 1 of `process_pdf`: scan all pages and record
`code → parse_decimal(weight)`; later matches overwrite earlier ones. -/
def buildWeightMap (pages : List (Option (List (List Char)))) : List Char → ℚ :=
  (pages.foldl
    (fun acc p =>
      match p with
      | none => acc
      | some lines => acc ++ findWeights (pageText lines)) []).foldl
    (fun m cw => fun c => if c = cw.1 then parse_decimal cw.2 else m c)
    (fun _ => 0)

/-- `TOTAL AMOUNT\s+([A-Z]{3})` anchored at the head. -/
def currencyMatchAt (cs : List Char) : Option (List Char) :=
  if isPrefixL (str "TOTAL AMOUNT") cs then
    match cs.drop 12 with
    | [] => none
    | c :: _ =>
      if isSpc c then
        match (cs.drop 12).dropWhile isSpc with
        | a :: b :: c3 :: _ =>
          if isUpperAZ a && isUpperAZ b && isUpperAZ c3 then some [a, b, c3] else none
        | _ => none
      else none
  else none

/-- `re.search` with the currency pattern. -/
def currencySearch : List Char → Option (List Char)
  | [] => none
  | c :: r =>
    match currencyMatchAt (c :: r) with
    | some m => some m
    | none => currencySearch r

/-- PRE-PASS 2 loop body over the pages selected for currency detection:
a regex match sets the currency and breaks; the `USD`/`EUR` heuristics set it
and keep scanning. -/
def currencyScan : List Char → List (Option (List (List Char))) → List Char
  | cur, [] => cur
  | cur, p :: ps =>
    match p with
    | none => currencyScan cur ps
    | some lines =>
      let t := pageText lines
      match currencySearch t with
      | some c3 => c3
      | none =>
        if containsSub (str "USD") t && containsSub (str "TOTAL AMOUNT") t then
          currencyScan (str "USD") ps
        else if containsSub (str "EUR") t && containsSub (str "TOTAL AMOUNT") t then
          currencyScan (str "EUR") ps
        else currencyScan cur ps

/-- PRE-PASS 2 of `process_pdf`: scan the last page, preceded by the
second-to-last when the document has more than one page. -/
def detectCurrency (pages : List (Option (List (List Char)))) : List Char :=
  let toScan :=
    match pages.reverse with
    | [] => []
    | [p] => [p]
    | p1 :: p2 :: _ => [p2, p1]
  currencyScan (str "UNKNOWN") toScan

/-- `process_pdf` with the weight index supplied explicitly (the source
computes it by PRE-PASS 1 and then calls `calculate_weights` on the raw
rows). -/
def extractWithIndex (pages : List (Option (List (List Char)))) (wmap : List Char → ℚ) :
    List Row :=
  calculate_weights (scanDocRows (detectCurrency pages) pages) wmap

/-- The full `process_pdf` core: pre-passes, main scan, weight allocation.
(The CSV enrichment and column selection that follow in the source are
external-collaborator I/O.) -/
def process_pdf (pages : List (Option (List (List Char)))) : List Row :=
  extractWithIndex pages (buildWeightMap pages)

/-! ### Concrete instances used by the closed theorems below -/

/-- The two-page document of the end-to-end scenario: order confirmation,
purchase-order reference and transaction line on page 1, the HS-code line on
page 2. -/
def sampleDoc : List (Option (List (List Char))) :=
  [some [str "OC12345678",
         str "REF PO-9988 12/01/24",
         str "F0900B032.2683 VALVE BALL PZ 10 25,50 255,00"],
   some [str "H.S 84818019"]]

/-- The stipulated weight index: `84818019 → 12.0`, every other code absent
(`get` default `0.0`). -/
def sampleIndex : List Char → ℚ :=
  fun c => if c = str "84818019" then 12 else 0

/-- A concrete open row (all fields empty/zero). -/
def exRow : Row := default

/-- A concrete mid-scan state: one open pending row and a sticky item code
`AAA111`. -/
def exState : ScanState :=
  { initState with pending_row := some exRow, current_item_code := str "AAA111" }

/-- A transaction line whose math part is empty (`split(" PZ ")` yields
`["KIT200", "", "B"]`), so `math_tokens[-1]` raises `IndexError` in the
source — after `current_item_code` has already been reassigned. -/
def lineFailPZ : List Char := str "KIT200 PZ  PZ B"

/-- Two rows sharing HS code `11112222` with quantities 2 and 3. -/
def wRow1 : Row := { (default : Row) with hs_code := str "11112222", qty := 2 }

/-- Second row of the weight-allocation witness. -/
def wRow2 : Row := { (default : Row) with hs_code := str "11112222", qty := 3 }

/-- Weight index mapping `11112222 → 10`. -/
def wMap : List Char → ℚ := fun c => if c = str "11112222" then 10 else 0

/-- Two rows with the same merge key (PO number, item code, price) but
different descriptions and amounts. -/
def mRow1 : Row :=
  { (default : Row) with
    po_no := str "PO-1", item_code := str "K1",
    price := 2, qty := 1, amount := 2, total_weight := 5, item_desc := str "A" }

/-- Second row of the merge witness. -/
def mRow2 : Row :=
  { (default : Row) with
    po_no := str "PO-1", item_code := str "K1",
    price := 2, qty := 4, amount := 8, total_weight := 7, item_desc := str "B" }

/-- A row whose merge key is unique. -/
def mRow3 : Row :=
  { (default : Row) with po_no := str "PO-9", item_code := str "K9", price := 3, qty := 6 }

/-! ### Helper lemmas about the scanner steps -/

lemma headerStep_keeps (fp : Bool) (s : ScanState) (l : List Char) :
    (headerStep fp s l).extracted_rows = s.extracted_rows ∧
    (headerStep fp s l).pending_row = s.pending_row := by
  unfold headerStep
  split
  · split <;> exact ⟨rfl, rfl⟩
  · exact ⟨rfl, rfl⟩

lemma ocStep_keeps (s : ScanState) (l : List Char) :
    (ocStep s l).extracted_rows = s.extracted_rows ∧
    (ocStep s l).pending_row = s.pending_row := by
  unfold ocStep
  split <;> exact ⟨rfl, rfl⟩

lemma poStep_keeps (s : ScanState) (l : List Char) :
    (poStep s l).extracted_rows = s.extracted_rows ∧
    (poStep s l).pending_row = s.pending_row := by
  unfold poStep
  split
  · split <;> exact ⟨rfl, rfl⟩
  · exact ⟨rfl, rfl⟩

lemma hsStep_keeps (s : ScanState) (l : List Char) :
    (hsStep s l).extracted_rows = s.extracted_rows ∧
    (hsStep s l).pending_row = s.pending_row.map (hsBack l) := by
  unfold hsStep
  rcases h : hsFound l with _ | c
  · refine ⟨rfl, ?_⟩
    cases s.pending_row <;> simp [hsBack, h]
  · refine ⟨rfl, ?_⟩
    cases s.pending_row <;> simp [hsBack, h]

lemma itemStep_keeps (s : ScanState) (l : List Char) :
    (itemStep s l).extracted_rows = s.extracted_rows ∧
    (itemStep s l).pending_row = s.pending_row := by
  unfold itemStep
  split
  · exact ⟨rfl, rfl⟩
  · split
    · exact ⟨rfl, rfl⟩
    · split <;> exact ⟨rfl, rfl⟩

lemma commitPending_extracted (s : ScanState) :
    (commitPending s).extracted_rows = s.extracted_rows ++ s.pending_row.toList := by
  unfold commitPending
  cases s.pending_row <;> simp

lemma commitPending_pending (s : ScanState) :
    (commitPending s).pending_row = none := by
  unfold commitPending
  rcases h : s.pending_row with _ | r <;> simp [h]

lemma descUpdate_keeps (s : ScanState) (d : List Char) :
    (descUpdate s d).1.extracted_rows = s.extracted_rows ∧
    (descUpdate s d).1.pending_row = s.pending_row := by
  unfold descUpdate
  split
  · split <;> exact ⟨rfl, rfl⟩
  · exact ⟨rfl, rfl⟩

lemma transStep_not_pz (cur : List Char) (s : ScanState) (l : List Char)
    (h : containsSub pzSep l = false) : transStep cur s l = s := by
  simp [transStep, h]

lemma transStep_pz_extracted (cur : List Char) (s : ScanState) (l : List Char)
    (h : containsSub pzSep l = true) :
    (transStep cur s l).extracted_rows = s.extracted_rows ++ s.pending_row.toList := by
  have h1 := (descUpdate_keeps (commitPending s) (pyStrip ((splitPZ l).getD 0 []))).1
  have h2 := commitPending_extracted s
  simp only [transStep, h, if_true]
  split
  · rw [h1, h2]
  · show (descUpdate (commitPending s) (pyStrip ((splitPZ l).getD 0 []))).1.extracted_rows = _
    rw [h1, h2]

lemma transStep_pending_nil (cur : List Char) (s : ScanState) (l : List Char)
    (h : containsSub pzSep l = true) (hmt : mathTokensOf l = []) :
    (transStep cur s l).pending_row = none := by
  have h1 := (descUpdate_keeps (commitPending s) (pyStrip ((splitPZ l).getD 0 []))).2
  simp only [transStep, h, if_true, hmt]
  rw [h1, commitPending_pending]

lemma transStep_pending_cons (cur : List Char) (s : ScanState) (l : List Char)
    (t : List Char) (ts : List (List Char))
    (h : containsSub pzSep l = true) (hmt : mathTokensOf l = t :: ts) :
    (transStep cur s l).pending_row =
      some (mkPendingRow cur
        (descUpdate (commitPending s) (pyStrip ((splitPZ l).getD 0 []))).1
        (descUpdate (commitPending s) (pyStrip ((splitPZ l).getD 0 []))).2 (t :: ts)) := by
  simp only [transStep, h, if_true, hmt]

lemma stepLine_nonPZ (cur : List Char) (fp : Bool) (s : ScanState) (l : List Char)
    (h : containsSub pzSep l = false) :
    (stepLine cur fp s l).extracted_rows = s.extracted_rows ∧
    (stepLine cur fp s l).pending_row = s.pending_row.map (hsBack l) := by
  unfold stepLine
  rw [transStep_not_pz _ _ _ h]
  obtain ⟨e1, p1⟩ := headerStep_keeps fp s l
  obtain ⟨e2, p2⟩ := ocStep_keeps (headerStep fp s l) l
  obtain ⟨e3, p3⟩ := poStep_keeps (ocStep (headerStep fp s l) l) l
  obtain ⟨e4, p4⟩ := hsStep_keeps (poStep (ocStep (headerStep fp s l) l) l) l
  obtain ⟨e5, p5⟩ := itemStep_keeps (hsStep (poStep (ocStep (headerStep fp s l) l) l) l) l
  constructor
  · rw [e5, e4, e3, e2, e1]
  · rw [p5, p4, p3, p2, p1]

lemma stepLine_PZ_extracted (cur : List Char) (fp : Bool) (s : ScanState) (l : List Char)
    (h : containsSub pzSep l = true) :
    (stepLine cur fp s l).extracted_rows
      = s.extracted_rows ++ (s.pending_row.map (hsBack l)).toList := by
  unfold stepLine
  rw [transStep_pz_extracted _ _ _ h]
  obtain ⟨e1, p1⟩ := headerStep_keeps fp s l
  obtain ⟨e2, p2⟩ := ocStep_keeps (headerStep fp s l) l
  obtain ⟨e3, p3⟩ := poStep_keeps (ocStep (headerStep fp s l) l) l
  obtain ⟨e4, p4⟩ := hsStep_keeps (poStep (ocStep (headerStep fp s l) l) l) l
  obtain ⟨e5, p5⟩ := itemStep_keeps (hsStep (poStep (ocStep (headerStep fp s l) l) l) l) l
  rw [e5, e4, e3, e2, e1, p5, p4, p3, p2, p1]

lemma stepLine_PZ_pending_nil (cur : List Char) (fp : Bool) (s : ScanState) (l : List Char)
    (h : containsSub pzSep l = true) (hmt : mathTokensOf l = []) :
    (stepLine cur fp s l).pending_row = none := by
  unfold stepLine
  rw [transStep_pending_nil _ _ _ h hmt]

lemma stepLine_PZ_pending_cons (cur : List Char) (fp : Bool) (s : ScanState) (l : List Char)
    (t : List Char) (ts : List (List Char))
    (h : containsSub pzSep l = true) (hmt : mathTokensOf l = t :: ts) :
    ∃ r, (stepLine cur fp s l).pending_row = some r ∧
      r.qty = parse_decimal (if 1 ≤ (t :: ts).length then (t :: ts).headD [] else str "0") ∧
      r.price = parse_decimal
        (if 2 ≤ (t :: ts).length then (t :: ts).getD ((t :: ts).length - 2) [] else str "0") ∧
      r.amount = parse_decimal ((t :: ts).getLast?.getD []) ∧
      r.discount = parse_decimal (str "0") := by
  unfold stepLine
  rw [transStep_pending_cons _ _ _ _ _ h hmt]
  exact ⟨_, rfl, rfl, rfl, rfl, rfl⟩

lemma scanSeq_cons (cur : List Char) (p : Bool × List Char) (ls : List (Bool × List Char))
    (s : ScanState) :
    scanSeq cur (p :: ls) s = scanSeq cur ls (stepLine cur p.1 s p.2) := rfl

lemma lastHS_from (ls : List (List Char)) (acc : Option (List Char)) :
    ls.foldl (fun acc l => (hsFound l).or acc) acc = (lastHS ls).or acc := by
  induction ls generalizing acc with
  | nil => simp [lastHS, Option.or]
  | cons l ls ih =>
    simp only [lastHS, List.foldl_cons]
    rw [ih ((hsFound l).or acc), ih ((hsFound l).or none)]
    cases lastHS ls <;> cases hsFound l <;> simp [Option.or]

lemma lastHS_cons (l : List Char) (ls : List (List Char)) :
    lastHS (l :: ls) = (lastHS ls).or (hsFound l) := by
  simp only [lastHS, List.foldl_cons]
  rw [lastHS_from]
  cases hsFound l <;> rfl

lemma or_getD_eq {α : Type} (a b : Option α) (c d : α) (h : a.or b = some c) :
    a.getD (b.getD d) = c := by
  cases a <;> cases b <;> simp_all [Option.or]

lemma hsBack_hs (l : List Char) (r : Row) :
    (hsBack l r).hs_code = (hsFound l).getD r.hs_code := by
  unfold hsBack
  cases hsFound l <;> simp

lemma applyBackfills_cons (l : List Char) (ls : List (List Char)) (r : Row) :
    applyBackfills (l :: ls) r = applyBackfills ls (hsBack l r) := rfl

lemma applyBackfills_hs (ls : List (List Char)) (r : Row) :
    (applyBackfills ls r).hs_code = (lastHS ls).getD r.hs_code := by
  induction ls generalizing r with
  | nil => simp [applyBackfills, lastHS]
  | cons l ls ih =>
    rw [applyBackfills_cons, ih, lastHS_cons, hsBack_hs]
    cases lastHS ls <;> cases hsFound l <;> simp [Option.or]

lemma scanSeq_nonPZ (cur : List Char) (mid : List (Bool × List Char)) (s : ScanState)
    (h : ∀ p ∈ mid, containsSub pzSep p.2 = false) :
    (scanSeq cur mid s).extracted_rows = s.extracted_rows ∧
    (scanSeq cur mid s).pending_row
      = s.pending_row.map (applyBackfills (mid.map Prod.snd)) := by
  induction mid generalizing s with
  | nil =>
    refine ⟨rfl, ?_⟩
    show s.pending_row = s.pending_row.map (applyBackfills [])
    cases s.pending_row <;> rfl
  | cons p mid ih =>
    have hp : containsSub pzSep p.2 = false := h p (List.mem_cons_self p mid)
    obtain ⟨e1, p1⟩ := stepLine_nonPZ cur p.1 s p.2 hp
    obtain ⟨e2, p2⟩ :=
      ih (stepLine cur p.1 s p.2) (fun q hq => h q (List.mem_cons_of_mem p hq))
    constructor
    · rw [scanSeq_cons, e2, e1]
    · rw [scanSeq_cons, p2, p1]
      cases s.pending_row <;> simp [applyBackfills_cons]

lemma stepLine_extends (cur : List Char) (fp : Bool) (s : ScanState) (l : List Char) :
    ∃ t, (stepLine cur fp s l).extracted_rows = s.extracted_rows ++ t := by
  cases hb : containsSub pzSep l
  · exact ⟨[], by rw [(stepLine_nonPZ cur fp s l hb).1, List.append_nil]⟩
  · exact ⟨(s.pending_row.map (hsBack l)).toList, stepLine_PZ_extracted cur fp s l hb⟩

lemma scanPage_cons (cur : List Char) (fp : Bool) (s : ScanState) (l : List Char)
    (ls : List (List Char)) :
    scanPage cur fp s (l :: ls) = scanPage cur fp (stepLine cur fp s (pyStrip l)) ls := rfl

lemma scanPage_extends (cur : List Char) (fp : Bool) (s : ScanState)
    (lines : List (List Char)) :
    ∃ t, (scanPage cur fp s lines).extracted_rows = s.extracted_rows ++ t := by
  induction lines generalizing s with
  | nil => exact ⟨[], by simp [scanPage]⟩
  | cons l ls ih =>
    obtain ⟨t1, h1⟩ := stepLine_extends cur fp s (pyStrip l)
    obtain ⟨t2, h2⟩ := ih (stepLine cur fp s (pyStrip l))
    exact ⟨t1 ++ t2, by rw [scanPage_cons, h2, h1, List.append_assoc]⟩

lemma scanPagesFrom_extends (cur : List Char) (i : Nat) (s : ScanState)
    (pages : List (Option (List (List Char)))) :
    ∃ t, (scanPagesFrom cur i s pages).extracted_rows = s.extracted_rows ++ t := by
  induction pages generalizing i s with
  | nil => exact ⟨[], by simp [scanPagesFrom]⟩
  | cons p ps ih =>
    cases p with
    | none =>
      obtain ⟨t, h⟩ := ih (i + 1) s
      exact ⟨t, h⟩
    | some lines =>
      obtain ⟨t1, h1⟩ := scanPage_extends cur (i == 0) s lines
      obtain ⟨t2, h2⟩ := ih (i + 1) (scanPage cur (i == 0) s lines)
      exact ⟨t1 ++ t2, by
        show (scanPagesFrom cur (i + 1) (scanPage cur (i == 0) s lines) ps).extracted_rows = _
        rw [h2, h1, List.append_assoc]⟩

/-! ### Claim theorems -/

/-- C1: for every document, if an HS-code line (`H.S`/`HS` marker with an
8-digit code) occurs strictly after the transaction line that opened the
currently pending row and before the next transaction line — page boundaries
are irrelevant, the intermediate lines `mid` carry arbitrary first-page
flags — then the row committed by that next transaction line carries the
last HS code found on the intermediate lines (or on the committing line
itself), not the sticky value the row was created with. -/
theorem C1_cross_page_hs_backfill (cur : List Char) (s : ScanState) (r : Row)
    (mid : List (Bool × List Char)) (fpt : Bool) (t : List Char) (c : List Char)
    (hp : s.pending_row = some r)
    (hmid : ∀ p ∈ mid, containsSub pzSep p.2 = false)
    (ht : containsSub pzSep t = true)
    (hc : lastHS (mid.map Prod.snd ++ [t]) = some c) :
    ∃ r', (stepLine cur fpt (scanSeq cur mid s) t).extracted_rows
            = s.extracted_rows ++ [r'] ∧ r'.hs_code = c := by
  obtain ⟨e, p⟩ := scanSeq_nonPZ cur mid s hmid
  rw [stepLine_PZ_extracted _ _ _ _ ht, e, p, hp]
  refine ⟨hsBack t (applyBackfills (mid.map Prod.snd) r), by simp, ?_⟩
  rw [hsBack_hs, applyBackfills_hs]
  have hsplit : lastHS (mid.map Prod.snd ++ [t])
      = (hsFound t).or (lastHS (mid.map Prod.snd)) := by
    simp only [lastHS, List.foldl_append, List.foldl_cons, List.foldl_nil]
  rw [hsplit] at hc
  exact or_getD_eq _ _ _ _ hc

/-- C1 witness: a pending row backfilled by an `H.S 84818019` line arriving
before the next transaction line. -/
theorem C1_cross_page_hs_backfill_witness :
    ∃ r', (stepLine (str "UNKNOWN") false
            (scanSeq (str "UNKNOWN") [(false, str "H.S 84818019")] exState)
            (str "X PZ 1 2,00 2,00")).extracted_rows
          = exState.extracted_rows ++ [r'] ∧ r'.hs_code = str "84818019" :=
  C1_cross_page_hs_backfill (str "UNKNOWN") exState exRow
    [(false, str "H.S 84818019")] false (str "X PZ 1 2,00 2,00") (str "84818019")
    (by decide) (by decide) (by decide) (by decide)

/-- C2: commit discipline of the scanner.  (1) A non-transaction line never
changes the committed output (so the end of a page, which runs no code at
all, commits nothing).  (2) A transaction line reaching a state with an open
pending row commits exactly that row (after any same-line HS backfill).
(3) The page loop decomposes: scanning `P ++ Q` equals scanning `Q` from the
state — including its still-open pending row — reached after `P`, so a row
opened on page N stays open across the boundary into page N+1.  (4) The
document output is the committed rows plus the end-of-document flush of the
pending row.  At most one row is pending at any time by construction:
`pending_row` is a single optional value. -/
theorem C2_commit_discipline :
    (∀ (cur : List Char) (fp : Bool) (s : ScanState) (l : List Char),
        containsSub pzSep l = false →
        (stepLine cur fp s l).extracted_rows = s.extracted_rows) ∧
    (∀ (cur : List Char) (fp : Bool) (s : ScanState) (l : List Char) (r : Row),
        s.pending_row = some r → containsSub pzSep l = true →
        (stepLine cur fp s l).extracted_rows = s.extracted_rows ++ [hsBack l r]) ∧
    (∀ (cur : List Char) (i : Nat) (s : ScanState)
        (P Q : List (Option (List (List Char)))),
        scanPagesFrom cur i s (P ++ Q)
          = scanPagesFrom cur (i + P.length) (scanPagesFrom cur i s P) Q) ∧
    (∀ (cur : List Char) (pages : List (Option (List (List Char)))),
        scanDocRows cur pages
          = (scanPagesFrom cur 0 initState pages).extracted_rows
            ++ (scanPagesFrom cur 0 initState pages).pending_row.toList) := by
  refine ⟨?_, ?_, ?_, ?_⟩
  · exact fun cur fp s l h => (stepLine_nonPZ cur fp s l h).1
  · intro cur fp s l r hp h
    rw [stepLine_PZ_extracted cur fp s l h, hp]
    rfl
  · intro cur i s P Q
    induction P generalizing i s with
    | nil => simp [scanPagesFrom]
    | cons p P ih =>
      have hidx : i + 1 + P.length = i + (P.length + 1) := by omega
      cases p with
      | none =>
        calc scanPagesFrom cur i s ((none :: P) ++ Q)
            = scanPagesFrom cur (i + 1) s (P ++ Q) := rfl
          _ = scanPagesFrom cur (i + 1 + P.length) (scanPagesFrom cur (i + 1) s P) Q :=
              ih (i + 1) s
          _ = scanPagesFrom cur (i + (P.length + 1)) (scanPagesFrom cur (i + 1) s P) Q := by
              rw [hidx]
          _ = scanPagesFrom cur (i + (none :: P).length)
                (scanPagesFrom cur i s (none :: P)) Q := rfl
      | some lines =>
        calc scanPagesFrom cur i s ((some lines :: P) ++ Q)
            = scanPagesFrom cur (i + 1) (scanPage cur (i == 0) s lines) (P ++ Q) := rfl
          _ = scanPagesFrom cur (i + 1 + P.length)
                (scanPagesFrom cur (i + 1) (scanPage cur (i == 0) s lines) P) Q :=
              ih (i + 1) (scanPage cur (i == 0) s lines)
          _ = scanPagesFrom cur (i + (P.length + 1))
                (scanPagesFrom cur (i + 1) (scanPage cur (i == 0) s lines) P) Q := by
              rw [hidx]
          _ = scanPagesFrom cur (i + (some lines :: P).length)
                (scanPagesFrom cur i s (some lines :: P)) Q := rfl
  · intro cur pages
    rfl

/-- C2 witness: instances of the hypothesis-bearing conjuncts at concrete
inputs (a non-transaction line leaves the output untouched; a transaction
line commits the open row). -/
theorem C2_commit_discipline_witness :
    (stepLine (str "UNKNOWN") false exState (str "hello world")).extracted_rows
      = exState.extracted_rows ∧
    (stepLine (str "UNKNOWN") false exState (str "X PZ 1 2,00 2,00")).extracted_rows
      = exState.extracted_rows ++ [hsBack (str "X PZ 1 2,00 2,00") exRow] :=
  ⟨C2_commit_discipline.1 (str "UNKNOWN") false exState (str "hello world") (by decide),
   C2_commit_discipline.2.1 (str "UNKNOWN") false exState (str "X PZ 1 2,00 2,00") exRow
     (by decide) (by decide)⟩

/-- C9: the raw extracted row sequence preserves document order.  Every line
either leaves the committed output unchanged or appends the (possibly
backfilled) pending row at the end; consequently every fold of the scanner —
line sequences, pages, the page loop — only ever extends the output on the
right, and the final output is the committed sequence plus the
end-of-document flush.  No reordering occurs before the merge post-pass. -/
theorem C9_output_append_only :
    (∀ (cur : List Char) (fp : Bool) (s : ScanState) (l : List Char),
        (stepLine cur fp s l).extracted_rows = s.extracted_rows
          ∨ ∃ r, s.pending_row = some r ∧
              (stepLine cur fp s l).extracted_rows = s.extracted_rows ++ [hsBack l r]) ∧
    (∀ (cur : List Char) (fp : Bool) (s : ScanState) (lines : List (List Char)),
        ∃ t, (scanPage cur fp s lines).extracted_rows = s.extracted_rows ++ t) ∧
    (∀ (cur : List Char) (i : Nat) (s : ScanState)
        (pages : List (Option (List (List Char)))),
        ∃ t, (scanPagesFrom cur i s pages).extracted_rows = s.extracted_rows ++ t) ∧
    (∀ (cur : List Char) (pages : List (Option (List (List Char)))),
        scanDocRows cur pages
          = (scanPagesFrom cur 0 initState pages).extracted_rows
            ++ (scanPagesFrom cur 0 initState pages).pending_row.toList) := by
  refine ⟨?_, scanPage_extends, scanPagesFrom_extends, fun cur pages => rfl⟩
  intro cur fp s l
  cases hb : containsSub pzSep l
  · exact Or.inl (stepLine_nonPZ cur fp s l hb).1
  · rcases hp : s.pending_row with _ | r
    · refine Or.inl ?_
      rw [stepLine_PZ_extracted cur fp s l hb, hp]
      simp
    · refine Or.inr ⟨r, rfl, ?_⟩
      rw [stepLine_PZ_extracted cur fp s l hb, hp]
      rfl

/-- C4 (amended): if parsing a transaction line fails (the math part has no
tokens, the source's `IndexError` at `math_tokens[-1]`), no new row is
produced from it (`pending_row` ends `none`) and scanning continues; however
the line's encounter has already committed and cleared a previously pending
row (with any same-line HS backfill), and `current_item_code` may already
have been reassigned from the description part before the failure point. -/
theorem C4_amended_failed_parse (cur : List Char) (fp : Bool) (s : ScanState) (l : List Char)
    (h : containsSub pzSep l = true) (hmt : mathTokensOf l = []) :
    (stepLine cur fp s l).pending_row = none ∧
    (stepLine cur fp s l).extracted_rows
      = s.extracted_rows ++ (s.pending_row.map (hsBack l)).toList :=
  ⟨stepLine_PZ_pending_nil cur fp s l h hmt, stepLine_PZ_extracted cur fp s l h⟩

/-- C4 amended witness: the failing line `KIT200 PZ  PZ B` on a state with
an open pending row. -/
theorem C4_amended_failed_parse_witness :
    (stepLine (str "UNKNOWN") false exState lineFailPZ).pending_row = none ∧
    (stepLine (str "UNKNOWN") false exState lineFailPZ).extracted_rows
      = exState.extracted_rows ++ (exState.pending_row.map (hsBack lineFailPZ)).toList :=
  C4_amended_failed_parse (str "UNKNOWN") false exState lineFailPZ (by decide) (by decide)

/-- C5 (amended): when a transaction line's math part splits into at least
one whitespace token, the constructed row takes its quantity from the first
token, its unit price from the second-to-last token — defaulting to `"0"`
when there are fewer than 2 tokens — its amount from the last token, and its
discount is always `"0"`.  When the math part has no tokens at all, no row
is constructed: `math_tokens[-1]` raises before the quantity default can
apply and the line is skipped. -/
theorem C5_amended_math_tokens (cur : List Char) (fp : Bool) (s : ScanState) (l : List Char)
    (h : containsSub pzSep l = true) :
    (∀ t ts, mathTokensOf l = t :: ts →
        ∃ r, (stepLine cur fp s l).pending_row = some r ∧
          r.qty = parse_decimal t ∧
          r.price = parse_decimal (if 2 ≤ (t :: ts).length
              then (t :: ts).getD ((t :: ts).length - 2) [] else str "0") ∧
          r.amount = parse_decimal ((t :: ts).getLast?.getD []) ∧
          r.discount = parse_decimal (str "0")) ∧
    (mathTokensOf l = [] → (stepLine cur fp s l).pending_row = none) := by
  constructor
  · intro t ts hmt
    obtain ⟨r, hr, hq, hpr, ha, hd⟩ := stepLine_PZ_pending_cons cur fp s l t ts h hmt
    refine ⟨r, hr, ?_, hpr, ha, hd⟩
    rw [hq]
    simp
  · exact stepLine_PZ_pending_nil cur fp s l h

/-- C5 amended witness: a one-token math part (`X PZ 5`): quantity and
amount both come from the single token, the price defaults to `"0"`. -/
theorem C5_amended_math_tokens_witness :
    ∃ r, (stepLine (str "UNKNOWN") false initState (str "X PZ 5")).pending_row = some r ∧
      r.qty = parse_decimal (str "5") ∧
      r.price = parse_decimal (if 2 ≤ ([str "5"] : List (List Char)).length
          then ([str "5"] : List (List Char)).getD (([str "5"] : List (List Char)).length - 2) []
          else str "0") ∧
      r.amount = parse_decimal (([str "5"] : List (List Char)).getLast?.getD []) ∧
      r.discount = parse_decimal (str "0") :=
  (C5_amended_math_tokens (str "UNKNOWN") false initState (str "X PZ 5") (by decide)).1
    (str "5") [] (by decide)

/-- C6: weight allocation.  For every HS code carried by at least one row,
with indexed weight `W = wmap code` and total quantity
`Q = qtySumFor rows code`: if `Q ≠ 0` every row carrying the code gets unit
weight `W / Q` and total weight `qty * (W / Q)`, and the total weights over
those rows sum exactly to `W`; if `Q = 0`, or the code is absent from the
index (`W = 0`), unit and total weight are `0`. -/
theorem C6_weight_allocation (rows : List Row) (wmap : List Char → ℚ) (code : List Char)
    (_hmem : ∃ r ∈ rows, r.hs_code = code) :
    (qtySumFor rows code ≠ 0 →
      ∀ r' ∈ calculate_weights rows wmap, r'.hs_code = code →
        r'.unit_weight = wmap code / qtySumFor rows code ∧
        r'.total_weight = r'.qty * (wmap code / qtySumFor rows code)) ∧
    (qtySumFor rows code ≠ 0 →
      (((calculate_weights rows wmap).filter
          (fun r => decide (r.hs_code = code))).map Row.total_weight).sum = wmap code) ∧
    (qtySumFor rows code = 0 →
      ∀ r' ∈ calculate_weights rows wmap, r'.hs_code = code →
        r'.unit_weight = 0 ∧ r'.total_weight = 0) ∧
    (wmap code = 0 →
      ∀ r' ∈ calculate_weights rows wmap, r'.hs_code = code →
        r'.unit_weight = 0 ∧ r'.total_weight = 0) := by
  refine ⟨?_, ?_, ?_, ?_⟩
  · intro hQ r' hr' hcode
    rw [calculate_weights] at hr'
    obtain ⟨r, hr, rfl⟩ := List.mem_map.1 hr'
    have hrc : r.hs_code = code := hcode
    constructor
    · show (if qtySumFor rows r.hs_code = 0 then 0
            else wmap r.hs_code / qtySumFor rows r.hs_code) = _
      rw [hrc, if_neg hQ]
    · show r.qty * (if qtySumFor rows r.hs_code = 0 then 0
            else wmap r.hs_code / qtySumFor rows r.hs_code)
          = r.qty * (wmap code / qtySumFor rows code)
      rw [hrc, if_neg hQ]
  · intro hQ
    rw [calculate_weights, List.filter_map]
    have hpred : ((fun r => decide (r.hs_code = code)) ∘
        (fun r : Row =>
          { r with
            unit_weight := if qtySumFor rows r.hs_code = 0 then 0
              else wmap r.hs_code / qtySumFor rows r.hs_code
            total_weight := r.qty * (if qtySumFor rows r.hs_code = 0 then 0
              else wmap r.hs_code / qtySumFor rows r.hs_code) }))
        = (fun r => decide (r.hs_code = code)) := rfl
    rw [hpred, List.map_map]
    have hcongr : (rows.filter (fun r => decide (r.hs_code = code))).map
        (Row.total_weight ∘ (fun r : Row =>
          { r with
            unit_weight := if qtySumFor rows r.hs_code = 0 then 0
              else wmap r.hs_code / qtySumFor rows r.hs_code
            total_weight := r.qty * (if qtySumFor rows r.hs_code = 0 then 0
              else wmap r.hs_code / qtySumFor rows r.hs_code) }))
        = (rows.filter (fun r => decide (r.hs_code = code))).map
          (fun r => r.qty * (wmap code / qtySumFor rows code)) := by
      refine List.map_congr_left ?_
      intro r hrmem
      have hrc : r.hs_code = code := by
        have := (List.mem_filter.1 hrmem).2
        simpa using this
      show r.qty * (if qtySumFor rows r.hs_code = 0 then 0
          else wmap r.hs_code / qtySumFor rows r.hs_code)
        = r.qty * (wmap code / qtySumFor rows code)
      rw [hrc, if_neg hQ]
    rw [hcongr, List.sum_map_mul_right]
    show qtySumFor rows code * (wmap code / qtySumFor rows code) = wmap code
    rw [mul_comm, div_mul_cancel₀ _ hQ]
  · intro hQ r' hr' hcode
    rw [calculate_weights] at hr'
    obtain ⟨r, hr, rfl⟩ := List.mem_map.1 hr'
    have hrc : r.hs_code = code := hcode
    constructor
    · show (if qtySumFor rows r.hs_code = 0 then 0
            else wmap r.hs_code / qtySumFor rows r.hs_code) = 0
      rw [hrc, if_pos hQ]
    · show r.qty * (if qtySumFor rows r.hs_code = 0 then 0
            else wmap r.hs_code / qtySumFor rows r.hs_code) = 0
      rw [hrc, if_pos hQ, mul_zero]
  · intro hW r' hr' hcode
    rw [calculate_weights] at hr'
    obtain ⟨r, hr, rfl⟩ := List.mem_map.1 hr'
    have hrc : r.hs_code = code := hcode
    have huw : (if qtySumFor rows r.hs_code = 0 then 0
        else wmap r.hs_code / qtySumFor rows r.hs_code) = 0 := by
      rw [hrc]
      by_cases hq : qtySumFor rows code = 0
      · rw [if_pos hq]
      · rw [if_neg hq, hW, zero_div]
    exact ⟨huw, by
      show r.qty * (if qtySumFor rows r.hs_code = 0 then 0
          else wmap r.hs_code / qtySumFor rows r.hs_code) = 0
      rw [huw, mul_zero]⟩

/-- C6 witness: rows with quantities 2 and 3 on code `11112222`, indexed
weight 10: the allocated total weights sum back to 10. -/
theorem C6_weight_allocation_witness :
    (((calculate_weights [wRow1, wRow2] wMap).filter
        (fun r => decide (r.hs_code = str "11112222"))).map Row.total_weight).sum
      = wMap (str "11112222") :=
  (C6_weight_allocation [wRow1, wRow2] wMap (str "11112222")
    ⟨wRow1, by decide, by decide⟩).2.1 (by decide)

lemma mergeKeys_from (rows : List Row) (acc : List (List Char × List Char × ℚ))
    (k : List Char × List Char × ℚ) :
    (k ∈ rows.foldl (fun acc r => if mkey r ∈ acc then acc else acc ++ [mkey r]) acc)
      ↔ k ∈ acc ∨ k ∈ rows.map mkey := by
  induction rows generalizing acc with
  | nil => simp
  | cons r rows ih =>
    simp only [List.foldl_cons, List.map_cons, List.mem_cons]
    rw [ih]
    by_cases hc : mkey r ∈ acc
    · rw [if_pos hc]
      constructor
      · rintro (h | h)
        · exact Or.inl h
        · exact Or.inr (Or.inr h)
      · rintro (h | h | h)
        · exact Or.inl h
        · exact Or.inl (h ▸ hc)
        · exact Or.inr h
    · rw [if_neg hc]
      simp only [List.mem_append, List.mem_singleton]
      tauto

lemma mergeKeys_mem (rows : List Row) (k : List Char × List Char × ℚ) :
    k ∈ mergeKeys rows ↔ k ∈ rows.map mkey := by
  rw [mergeKeys, mergeKeys_from]
  simp

/-- C7: the row merger groups by exact equality of (PO number, item code,
price); quantity, amount and total weight are summed within a group while
every other field keeps the first group member's value.  In particular two
rows with an identical key merge into one row carrying the arithmetic sums
(and `mRow1`'s other fields), and a row whose key is unique in the input
passes through unchanged. -/
theorem C7_merge_rows :
    (∀ r1 r2 : Row, mkey r1 = mkey r2 →
      merge_similar_items [r1, r2]
        = [{ r1 with
             qty := r1.qty + r2.qty, amount := r1.amount + r2.amount,
             total_weight := r1.total_weight + r2.total_weight }]) ∧
    (∀ (rows : List Row) (r : Row), r ∈ rows →
      rows.countP (fun x => decide (mkey x = mkey r)) = 1 →
      r ∈ merge_similar_items rows) := by
  constructor
  · intro r1 r2 h
    have hkeys : mergeKeys [r1, r2] = [mkey r1] := by
      simp [mergeKeys, ← h]
    have hfil : ([r1, r2] : List Row).filter (fun x => decide (mkey x = mkey r1))
        = [r1, r2] := by
      simp [List.filter, ← h]
    rw [merge_similar_items, hkeys, List.map_singleton, hfil, mergeGroup]
    simp
  · intro rows r hr hcount
    have hkm : mkey r ∈ mergeKeys rows :=
      (mergeKeys_mem rows (mkey r)).2 (List.mem_map_of_mem mkey hr)
    have hlen : (rows.filter (fun x => decide (mkey x = mkey r))).length = 1 := by
      rw [← List.countP_eq_length_filter]
      exact hcount
    obtain ⟨a, ha⟩ := List.length_eq_one.1 hlen
    have hrin : r ∈ rows.filter (fun x => decide (mkey x = mkey r)) :=
      List.mem_filter.2 ⟨hr, by simp⟩
    rw [ha] at hrin
    have har : a = r := by
      have := List.mem_singleton.1 hrin
      exact this.symm
    rw [har] at ha
    have hgrp : mergeGroup (rows.filter (fun x => decide (mkey x = mkey r))) = r := by
      rw [ha, mergeGroup]
      simp
    have hmm : mergeGroup (rows.filter (fun x => decide (mkey x = mkey r)))
        ∈ merge_similar_items rows := by
      rw [merge_similar_items]
      exact List.mem_map_of_mem _ hkm
    rwa [hgrp] at hmm

/-- C7 witness: two rows with the same key merge into their sum; a row with
a unique key passes through. -/
theorem C7_merge_rows_witness :
    merge_similar_items [mRow1, mRow2]
      = [{ mRow1 with
           qty := mRow1.qty + mRow2.qty, amount := mRow1.amount + mRow2.amount,
           total_weight := mRow1.total_weight + mRow2.total_weight }] ∧
    mRow3 ∈ merge_similar_items [mRow3] :=
  ⟨C7_merge_rows.1 mRow1 mRow2 (by decide),
   C7_merge_rows.2 [mRow3] mRow3 (by decide) (by decide)⟩

/-! ### Helper lemmas for the decimal decoder (C8) -/

lemma char_ne_of_digit (c d : Char) (h : c.isDigit = true) (hd : d.isDigit = false) :
    c ≠ d := by
  intro he
  rw [he, hd] at h
  exact Bool.noConfusion h

lemma not_spc_of_digit {c : Char} (h : c.isDigit = true) : isSpc c = false := by
  cases hsp : isSpc c
  · rfl
  · exfalso
    have hor := hsp
    simp only [isSpc, Bool.or_eq_true, decide_eq_true_eq] at hor
    rcases hor with ((((rfl | rfl) | rfl) | rfl) | rfl) | rfl <;> exact absurd h (by decide)

lemma dropWhile_append_all (p : Char → Bool) (l m : List Char)
    (h : ∀ c ∈ l, p c = true) :
    (l ++ m).dropWhile p = m.dropWhile p := by
  induction l with
  | nil => rfl
  | cons c l ih =>
    have hc : p c = true := h c (List.mem_cons_self c l)
    simp only [List.cons_append, List.dropWhile_cons, hc, if_true]
    exact ih (fun x hx => h x (List.mem_cons_of_mem c hx))

lemma dropWhile_cons_of_neg (p : Char → Bool) (c : Char) (l : List Char)
    (h : p c = false) :
    (c :: l).dropWhile p = c :: l := by
  simp [List.dropWhile_cons, h]

lemma takeWhile_all (p : Char → Bool) (l : List Char) (h : ∀ c ∈ l, p c = true) :
    l.takeWhile p = l ∧ l.dropWhile p = [] := by
  induction l with
  | nil => exact ⟨rfl, rfl⟩
  | cons c l ih =>
    have hc : p c = true := h c (List.mem_cons_self c l)
    obtain ⟨h1, h2⟩ := ih (fun x hx => h x (List.mem_cons_of_mem c hx))
    constructor
    · simp [List.takeWhile_cons, hc, h1]
    · simp [List.dropWhile_cons, hc, h2]

lemma span_exact (p : Char → Bool) (l : List Char) (c : Char) (m : List Char)
    (hl : ∀ x ∈ l, p x = true) (hc : p c = false) :
    (l ++ c :: m).takeWhile p = l ∧ (l ++ c :: m).dropWhile p = c :: m := by
  induction l with
  | nil =>
    constructor
    · simp [List.takeWhile_cons, hc]
    · simp [List.dropWhile_cons, hc]
  | cons a l ih =>
    have ha : p a = true := hl a (List.mem_cons_self a l)
    obtain ⟨h1, h2⟩ := ih (fun x hx => hl x (List.mem_cons_of_mem a hx))
    constructor
    · simp [List.takeWhile_cons, ha, h1]
    · simp [List.dropWhile_cons, ha, h2]

lemma stripUSD_cons_ne (c : Char) (t : List Char) (hc : c ≠ 'U') :
    stripUSD (c :: t) = c :: stripUSD t := by
  match t with
  | [] => rfl
  | [d] => rfl
  | d :: e :: t' =>
    rw [stripUSD, if_neg]
    rintro ⟨h1, -, -⟩
    exact hc h1

lemma stripUSD_noU (l m : List Char) (h : 'U' ∉ l) :
    stripUSD (l ++ m) = l ++ stripUSD m := by
  induction l with
  | nil => rfl
  | cons c l ih =>
    have hc : c ≠ 'U' := fun he => h (he ▸ List.mem_cons_self c l)
    rw [List.cons_append, stripUSD_cons_ne c _ hc,
      ih (fun hm => h (List.mem_cons_of_mem c hm))]
    rfl

lemma stripUSD_id (l : List Char) (h : 'U' ∉ l) : stripUSD l = l := by
  have h0 := stripUSD_noU l [] h
  rw [show stripUSD [] = [] from rfl, List.append_nil] at h0
  exact h0

lemma stripUSD_usd (l : List Char) : stripUSD ('U' :: 'S' :: 'D' :: l) = stripUSD l := by
  rw [stripUSD, if_pos ⟨rfl, rfl, rfl⟩]

lemma rstrip_exact (mid ws2 : List Char) (h2 : ∀ c ∈ ws2, isSpc c = true)
    (hlast : ∀ c, mid.getLast? = some c → isSpc c = false) :
    ((mid ++ ws2).reverse.dropWhile isSpc).reverse = mid := by
  have h2r : ∀ c ∈ ws2.reverse, isSpc c = true := fun c hc => h2 c (List.mem_reverse.1 hc)
  rcases List.eq_nil_or_concat mid with rfl | ⟨m', fl, rfl⟩
  · rw [List.nil_append, (takeWhile_all isSpc ws2.reverse h2r).2]
    rfl
  · have hfl : isSpc fl = false := by
      refine hlast fl ?_
      rw [List.concat_eq_append]
      exact List.getLast?_concat m'
    simp only [List.concat_eq_append, List.append_assoc, List.reverse_append,
      List.reverse_cons, List.reverse_nil, List.nil_append, List.singleton_append]
    rw [dropWhile_append_all isSpc ws2.reverse _ h2r,
      dropWhile_cons_of_neg isSpc fl _ hfl]
    simp only [List.reverse_cons, List.reverse_reverse]

lemma pyStrip_exact (ws1 mid ws2 : List Char)
    (h1 : ∀ c ∈ ws1, isSpc c = true) (h2 : ∀ c ∈ ws2, isSpc c = true)
    (hne : mid ≠ [])
    (hhead : ∀ c, mid.head? = some c → isSpc c = false)
    (hlast : ∀ c, mid.getLast? = some c → isSpc c = false) :
    pyStrip (ws1 ++ (mid ++ ws2)) = mid := by
  have hfwd : (ws1 ++ (mid ++ ws2)).dropWhile isSpc = mid ++ ws2 := by
    rw [dropWhile_append_all isSpc ws1 _ h1]
    obtain ⟨d, m, rfl⟩ := List.exists_cons_of_ne_nil hne
    rw [List.cons_append, dropWhile_cons_of_neg isSpc d _ (hhead d rfl),
      ← List.cons_append]
  unfold pyStrip
  rw [hfwd]
  exact rstrip_exact mid ws2 h2 hlast

lemma filter_all_keep (p : Char → Bool) (l : List Char) (h : ∀ c ∈ l, p c = true) :
    l.filter p = l := List.filter_eq_self.2 h

lemma remDots_flatten (gs : List (List Char))
    (hgs : ∀ g ∈ gs, ∀ c ∈ g, c.isDigit = true) :
    ((gs.map (fun g => '.' :: g)).flatten).filter (fun c => decide (c ≠ '.'))
      = gs.flatten := by
  induction gs with
  | nil => rfl
  | cons g gs ih =>
    have hg : ∀ c ∈ g, c.isDigit = true := hgs g (List.mem_cons_self g gs)
    have hgf : g.filter (fun c => decide (c ≠ '.')) = g :=
      filter_all_keep _ g (fun c hc => by
        have hne := char_ne_of_digit c '.' (hg c hc) (by decide)
        simp [hne])
    simp only [List.map_cons, List.flatten_cons, List.filter_append]
    rw [ih (fun x hx => hgs x (List.mem_cons_of_mem g hx)), List.filter_cons]
    simp [hgf]
    intro a ha
    exact char_ne_of_digit a '.' (hg a ha) (by decide)

lemma commaToDot_digits (l : List Char) (h : ∀ c ∈ l, c.isDigit = true) :
    commaToDot l = l := by
  unfold commaToDot
  rw [List.map_congr_left (g := id) (fun c hc => ?_), List.map_id]
  have hnc : c ≠ ',' := char_ne_of_digit c ',' (h c hc) (by decide)
  simp [hnc]

lemma readSign_digit (c : Char) (l : List Char) (h : c.isDigit = true) :
    readSign (c :: l) = (false, c :: l) := by
  show (if c = '-' then (true, l)
        else if c = '+' then (false, l) else (false, c :: l)) = (false, c :: l)
  rw [if_neg (char_ne_of_digit c '-' h (by decide)),
    if_neg (char_ne_of_digit c '+' h (by decide))]

lemma pyCore_point (I f : List Char) (hIne : I ≠ [])
    (hf : ∀ c ∈ f, c.isDigit = true) :
    pyCore I ('.' :: f)
      = some ((digitsToNat I : ℚ) + (digitsToNat f : ℚ) / 10 ^ f.length, []) := by
  obtain ⟨hft, hfd⟩ := takeWhile_all Char.isDigit f hf
  show (if ('.' : Char) = '.' then
          if I = [] ∧ f.takeWhile Char.isDigit = [] then none
          else some ((digitsToNat I : ℚ)
            + (digitsToNat (f.takeWhile Char.isDigit) : ℚ)
                / 10 ^ (f.takeWhile Char.isDigit).length,
            f.dropWhile Char.isDigit)
        else if I = [] then none else some ((digitsToNat I : ℚ), '.' :: f)) = _
  rw [if_pos rfl, hft, hfd, if_neg (fun hand => hIne hand.1)]

lemma pyFloat_point (I f : List Char)
    (hI : ∀ c ∈ I, c.isDigit = true) (hIne : I ≠ [])
    (hf : ∀ c ∈ f, c.isDigit = true) :
    pyFloat (I ++ '.' :: f)
      = some ((digitsToNat I : ℚ) + (digitsToNat f : ℚ) / 10 ^ f.length) := by
  obtain ⟨d, I', rfl⟩ := List.exists_cons_of_ne_nil hIne
  have hd : d.isDigit = true := hI d (List.mem_cons_self d I')
  obtain ⟨htk, hdr⟩ := span_exact Char.isDigit (d :: I') '.' f hI (by decide)
  have hsign := readSign_digit d (I' ++ '.' :: f) hd
  simp only [List.cons_append] at htk hdr ⊢
  unfold pyFloat
  rw [hsign]
  simp only []
  rw [htk, hdr, pyCore_point (d :: I') f (List.cons_ne_nil d I') hf]
  simp [expApply]

/-- C3: on the document whose line stream contains, in order, `OC12345678`,
`REF PO-9988 12/01/24`, the transaction line
`F0900B032.2683 VALVE BALL PZ 10 25,50 255,00`, and — on the next page —
`H.S 84818019`, with the weight index mapping `84818019` to `12.0`: the
single committed row has order confirmation `OC12345678`, PO number
`PO-9988`, PO date `12/01/24`, item code `F0900B032.2683`, description
`VALVE BALL`, quantity 10, price 25.50, amount 255.00, HS code `84818019`,
unit weight 1.2 and total weight 12.0 after allocation. -/
theorem C3_end_to_end :
    extractWithIndex sampleDoc sampleIndex =
      [{ inv_no := []
         inv_date := []
         supplier := supplierName
         oc := str "OC12345678"
         po_no := str "PO-9988"
         po_date := str "12/01/24"
         item_code := str "F0900B032.2683"
         item_desc := str "VALVE BALL"
         currency := str "UNKNOWN"
         qty := 10
         price := 25.5
         discount := 0
         amount := 255
         vat := []
         hs_code := str "84818019"
         unit_weight := 1.2
         total_weight := 12 }] := by
  decide

/-- C10: `parse_decimal` applied to the empty string returns `0.0` (by the
`if not num_str` short-circuit, before any cleaning or numeric
conversion). -/
theorem C10_empty_input : parse_decimal [] = 0 := by
  decide

/-- C5 counterexample: a transaction line whose math part has zero
whitespace tokens (here `"A PZ  PZ B"`, whose `split(" PZ ")` gives math
part `""`) constructs no row at all — `math_tokens[-1]` raises before the
quantity default `"0"` can apply, and the whole document yields an empty row
list, contradicting the claim that "a row is still constructed in these
default cases". -/
theorem C5_counterexample : process_pdf [some [str "A PZ  PZ B"]] = [] := by
  decide

/-- C4 counterexample: processing the transaction line
`"KIT200 PZ  PZ B"` — whose parse raises `IndexError` on the empty math
part, so no new row is created (`pending_row` ends `none`) — nevertheless
mutates scanner state: `current_item_code` is reassigned from `AAA111` to
`KIT200`, and the previously pending row is committed and cleared.  This
contradicts the claim that no scanner state is mutated by a line whose
parsing raises. -/
theorem C4_counterexample :
    (stepLine (str "UNKNOWN") false exState lineFailPZ).pending_row = none ∧
    (stepLine (str "UNKNOWN") false exState lineFailPZ).current_item_code ≠
      exState.current_item_code ∧
    (stepLine (str "UNKNOWN") false exState lineFailPZ).extracted_rows = [exRow] := by
  decide

/-- C8: the decimal decoder.  (1) For every string of the European shape
`D{1,3}(\.D{3})*,D+` — leading digit group `g0`, dot-separated 3-digit
groups `gs`, comma, fraction digits `f` — optionally surrounded by
whitespace and followed by a `USD` marker, `parse_decimal` returns exactly
the value of the string obtained by removing the dots and replacing the
comma with a period: the integer value of the concatenated digit groups
plus `f` scaled by `10^-|f|`.  (2) On any input whose cleaned form fails to
parse as a number, `parse_decimal` returns `0.0` instead of raising. -/
theorem C8_decimal_decoder :
    (∀ (g0 : List Char) (gs : List (List Char)) (f ws1 ws2 ws3 : List Char) (u : Bool),
      (∀ c ∈ g0, c.isDigit = true) → g0 ≠ [] → g0.length ≤ 3 →
      (∀ g ∈ gs, (∀ c ∈ g, c.isDigit = true) ∧ g.length = 3) →
      (∀ c ∈ f, c.isDigit = true) → f ≠ [] →
      (∀ c ∈ ws1, isSpc c = true) → (∀ c ∈ ws2, isSpc c = true) →
      (∀ c ∈ ws3, isSpc c = true) →
      parse_decimal (ws1 ++ ((g0 ++ ((gs.map (fun g => '.' :: g)).flatten ++ ',' :: f))
          ++ (ws2 ++ ((cond u (str "USD") []) ++ ws3))))
        = (digitsToNat (g0 ++ gs.flatten) : ℚ)
          + (digitsToNat f : ℚ) / 10 ^ f.length) ∧
    (∀ s : List Char, pyFloat (cleanOf s) = none → parse_decimal s = 0) := by
  constructor
  · intro g0 gs f ws1 ws2 ws3 u hg0 hg0ne hg0len hgs hf hfne hws1 hws2 hws3
    clear hg0len
    have hCORE : ∀ c ∈ g0 ++ ((gs.map (fun g => '.' :: g)).flatten ++ ',' :: f),
        c.isDigit = true ∨ c = '.' ∨ c = ',' := by
      intro c hc
      rcases List.mem_append.1 hc with h | h
      · exact Or.inl (hg0 c h)
      · rcases List.mem_append.1 h with h | h
        · rcases List.mem_flatten.1 h with ⟨l, hl, hcl⟩
          rcases List.mem_map.1 hl with ⟨g, hg, rfl⟩
          rcases List.mem_cons.1 hcl with rfl | hcg
          · exact Or.inr (Or.inl rfl)
          · exact Or.inl ((hgs g hg).1 c hcg)
        · rcases List.mem_cons.1 h with rfl | hcf
          · exact Or.inr (Or.inr rfl)
          · exact Or.inl (hf c hcf)
    have hUCORE : 'U' ∉ g0 ++ ((gs.map (fun g => '.' :: g)).flatten ++ ',' :: f) := by
      intro hm
      rcases hCORE 'U' hm with h | h | h
      · exact absurd h (by decide)
      · exact absurd h (by decide)
      · exact absurd h (by decide)
    have hUws1 : 'U' ∉ ws1 := fun hm => absurd (hws1 'U' hm) (by decide)
    have hUws2 : 'U' ∉ ws2 := fun hm => absurd (hws2 'U' hm) (by decide)
    have hUws3 : 'U' ∉ ws3 := fun hm => absurd (hws3 'U' hm) (by decide)
    have hstrip : stripUSD (ws1 ++ ((g0 ++ ((gs.map (fun g => '.' :: g)).flatten ++ ',' :: f))
          ++ (ws2 ++ ((cond u (str "USD") []) ++ ws3))))
        = ws1 ++ ((g0 ++ ((gs.map (fun g => '.' :: g)).flatten ++ ',' :: f))
          ++ (ws2 ++ ws3)) := by
      rw [stripUSD_noU ws1 _ hUws1, stripUSD_noU _ _ hUCORE, stripUSD_noU ws2 _ hUws2]
      cases u
      · rw [Bool.cond_false, List.nil_append, stripUSD_id ws3 hUws3]
      · rw [Bool.cond_true, show str "USD" ++ ws3 = 'U' :: 'S' :: 'D' :: ws3 from rfl,
          stripUSD_usd, stripUSD_id ws3 hUws3]
    have hws23 : ∀ c ∈ ws2 ++ ws3, isSpc c = true := by
      intro c hc
      rcases List.mem_append.1 hc with h | h
      · exact hws2 c h
      · exact hws3 c h
    obtain ⟨d, g0', rfl⟩ := List.exists_cons_of_ne_nil hg0ne
    have hhead : ∀ c,
        ((d :: g0') ++ ((gs.map (fun g => '.' :: g)).flatten ++ ',' :: f)).head? = some c →
        isSpc c = false := by
      intro c hc
      rw [List.cons_append] at hc
      have hdc : d = c := by
        have := hc
        simp only [List.head?_cons, Option.some.injEq] at this
        exact this
      rw [← hdc]
      exact not_spc_of_digit (hg0 d (List.mem_cons_self d g0'))
    have hlast : ∀ c,
        ((d :: g0') ++ ((gs.map (fun g => '.' :: g)).flatten ++ ',' :: f)).getLast? = some c →
        isSpc c = false := by
      intro c hc
      rcases List.eq_nil_or_concat f with rfl | ⟨f0, fl, hfeq⟩
      · exact absurd rfl hfne
      · have hshape : (d :: g0') ++ ((gs.map (fun g => '.' :: g)).flatten ++ ',' :: f)
            = ((d :: g0') ++ ((gs.map (fun g => '.' :: g)).flatten ++ ',' :: f0)) ++ [fl] := by
          rw [hfeq]
          simp [List.concat_eq_append, List.append_assoc]
        rw [hshape, List.getLast?_concat] at hc
        have hflc : fl = c := by
          simp only [Option.some.injEq] at hc
          exact hc
        have hfld : fl.isDigit = true := by
          refine hf fl ?_
          rw [hfeq]
          simp [List.concat_eq_append]
        rw [← hflc]
        exact not_spc_of_digit hfld
    have hclean : cleanOf ((ws1 ++ (((d :: g0') ++ ((gs.map (fun g => '.' :: g)).flatten
            ++ ',' :: f)) ++ (ws2 ++ ((cond u (str "USD") []) ++ ws3)))))
        = ((d :: g0') ++ gs.flatten) ++ '.' :: f := by
      unfold cleanOf
      rw [hstrip, pyStrip_exact ws1 _ (ws2 ++ ws3) hws1 hws23
        (by simp) hhead hlast]
      have hfg0 : (d :: g0').filter (fun c => decide (c ≠ '.')) = d :: g0' :=
        filter_all_keep _ _ (fun c hc => by
          have hne2 := char_ne_of_digit c '.' (hg0 c hc) (by decide)
          simp [hne2])
      have hff : f.filter (fun c => decide (c ≠ '.')) = f :=
        filter_all_keep _ _ (fun c hc => by
          have hne2 := char_ne_of_digit c '.' (hf c hc) (by decide)
          simp [hne2])
      have hrd : remDots ((d :: g0') ++ ((gs.map (fun g => '.' :: g)).flatten ++ ',' :: f))
          = (d :: g0') ++ (gs.flatten ++ ',' :: f) := by
        unfold remDots
        rw [List.filter_append, List.filter_append, hfg0,
          remDots_flatten gs (fun g hgm => (hgs g hgm).1), List.filter_cons]
        simp [hff]
        intro a ha
        exact char_ne_of_digit a '.' (hf a ha) (by decide)
      rw [hrd]
      have hflat : ∀ c ∈ gs.flatten, c.isDigit = true := by
        intro c hc
        rcases List.mem_flatten.1 hc with ⟨g, hg, hcg⟩
        exact (hgs g hg).1 c hcg
      have hsplit : commaToDot ((d :: g0') ++ (gs.flatten ++ ',' :: f))
          = commaToDot (d :: g0') ++ (commaToDot gs.flatten ++ commaToDot (',' :: f)) := by
        unfold commaToDot
        rw [List.map_append, List.map_append]
      rw [hsplit, commaToDot_digits (d :: g0') hg0, commaToDot_digits gs.flatten hflat,
        show commaToDot (',' :: f) = '.' :: commaToDot f from by
          unfold commaToDot
          rw [List.map_cons]
          simp,
        commaToDot_digits f hf, ← List.append_assoc]
    have hne : (ws1 ++ (((d :: g0') ++ ((gs.map (fun g => '.' :: g)).flatten
        ++ ',' :: f)) ++ (ws2 ++ ((cond u (str "USD") []) ++ ws3)))) ≠ [] := by
      intro h
      rcases List.append_eq_nil.1 h with ⟨-, h2⟩
      rcases List.append_eq_nil.1 h2 with ⟨h3, -⟩
      rcases List.append_eq_nil.1 h3 with ⟨h4, -⟩
      exact List.cons_ne_nil d g0' h4
    have hIdig : ∀ c ∈ (d :: g0') ++ gs.flatten, c.isDigit = true := by
      intro c hc
      rcases List.mem_append.1 hc with h | h
      · exact hg0 c h
      · rcases List.mem_flatten.1 h with ⟨g, hg, hcg⟩
        exact (hgs g hg).1 c hcg
    unfold parse_decimal
    rw [if_neg hne, hclean,
      pyFloat_point ((d :: g0') ++ gs.flatten) f hIdig (by simp) hf]
  · intro s h
    by_cases hs : s = []
    · rw [hs]
      rfl
    · unfold parse_decimal
      rw [if_neg hs, h]

/-- C8 witness: the string `1.234,56 USD` (assembled as leading group `1`,
one 3-digit group `234`, fraction `56`, a space and the `USD` marker)
decodes to `1234.56`, and the unparseable `abc` yields `0`. -/
theorem C8_decimal_decoder_witness :
    parse_decimal ([] ++ ((['1'] ++ (([['2', '3', '4']].map (fun g => '.' :: g)).flatten
        ++ ',' :: ['5', '6'])) ++ ([' '] ++ ((cond true (str "USD") []) ++ []))))
      = (digitsToNat (['1'] ++ [['2', '3', '4']].flatten) : ℚ)
        + (digitsToNat ['5', '6'] : ℚ) / 10 ^ (['5', '6'] : List Char).length ∧
    parse_decimal (str "abc") = 0 :=
  ⟨C8_decimal_decoder.1 ['1'] [['2', '3', '4']] ['5', '6'] [] [' '] [] true
      (by decide) (by decide) (by decide) (by decide) (by decide) (by decide)
      (by decide) (by decide) (by decide),
   C8_decimal_decoder.2 (str "abc") (by decide)⟩

end

end VirPdf
